import Mathlib

/-!
Verification of the markdown-to-notebook conversion core
(`skills/md2ipynb/scripts/convert.py`).

The embedding models Python strings as `List Char` (`Text`).  Every
function below is a direct translation of the corresponding Python
function: `remove_front_matter`, `split_by_delimiter`,
`extract_cells_from_section`, `parse_markdown` and `create_notebook`.
-/

namespace Md2Ipynb

/-- A Python string, modelled as its list of characters. -/
abbrev Text := List Char

/-- Coerce a Lean string literal to the `Text` model. -/
def txt (s : String) : Text := s.data

/-- The characters removed by Python's `str.strip()`. -/
def isWS (c : Char) : Bool :=
  c = ' ' || c = '\t' || c = '\n' || c = '\r' || c = '\x0b' || c = '\x0c'

/-- Python's `str.startswith`: `startsWith s p` is true when `p` is an
initial segment of `s`. -/
def startsWith : Text → Text → Bool
  | _, [] => true
  | [], _ :: _ => false
  | c :: cs, p :: ps => c = p && startsWith cs ps

/-- Python's `str.split('\n')`: always returns at least one (possibly
empty) line; a trailing newline yields a trailing empty line. -/
def splitNl : Text → List Text
  | [] => [[]]
  | c :: cs =>
    if c = '\n' then [] :: splitNl cs
    else
      match splitNl cs with
      | [] => [[c]]
      | l :: ls => (c :: l) :: ls

/-- Python's `'\n'.join`. -/
def joinNl : List Text → Text
  | [] => []
  | [l] => l
  | l :: l' :: ls => l ++ '\n' :: joinNl (l' :: ls)

/-- Python's `str.lstrip()`. -/
def ltrim (s : Text) : Text := s.dropWhile isWS

/-- Python's `str.rstrip()`. -/
def rtrim : Text → Text
  | [] => []
  | c :: cs =>
    match rtrim cs with
    | [] => if isWS c then [] else [c]
    | r :: rs => c :: r :: rs

/-- Python's `str.strip()`. -/
def trim (s : Text) : Text := rtrim (ltrim s)

/-- The section delimiter, the string `---`. -/
def delimText : Text := txt ("---")

/-- The code-fence marker, three backticks. -/
def fenceMark : Text := txt ("```")

-- sanity checks on the model of Python string primitives
example : splitNl (txt ("a\nb")) = [txt ("a"), txt ("b")] := by decide
example : splitNl (txt ("a\n")) = [txt ("a"), []] := by decide
example : splitNl [] = [[]] := by decide
example : trim (txt ("  a b\t\n")) = txt ("a b") := by decide
example : startsWith (txt ("---x")) delimText = true := by decide
example : startsWith (txt (" ---")) delimText = false := by decide
example : joinNl [txt ("a"), txt ("b")] = txt ("a\nb") := by decide

/-!
## Front-Matter Stripper (`remove_front_matter`)

The Python function scans `content.split('\n')` with a flag
`in_front_matter`; the first line whose `strip()` equals `---` raises the
flag, the next such line sets `end_index = i + 1` and breaks.  If
`end_index > 0` the lines from `end_index` on are rejoined, otherwise the
content is returned unchanged — and the whole scan only happens at all
when `content.startswith('---')`.
-/

/-- The line scan of `remove_front_matter`: returns `some end_index`
when a closing delimiter line is found, `none` otherwise.  `i` is the
index of the first line of `ls` in the whole document and `ifm` is the
`in_front_matter` flag. -/
def fmScan : List Text → Nat → Bool → Option Nat
  | [], _, _ => none
  | l :: ls, i, ifm =>
    if trim l = delimText then
      if ifm then some (i + 1) else fmScan ls (i + 1) true
    else fmScan ls (i + 1) ifm

/-- `remove_front_matter` from the source. -/
def remove_front_matter (content : Text) : Text :=
  if startsWith content delimText then
    match fmScan (splitNl content) 0 false with
    | some e => joinNl ((splitNl content).drop e)
    | none => content
  else content

example : remove_front_matter (txt ("---\ntitle: x\n---\nbody")) = txt ("body") := by decide
example : remove_front_matter (txt ("---\ntitle: x")) = txt ("---\ntitle: x") := by decide
example : remove_front_matter (txt ("body")) = txt ("body") := by decide
example : remove_front_matter (txt ("---x\n---\n---\nbody")) = txt ("body") := by decide

/-!
## Fence-Aware Segmenter (`split_by_delimiter`)

A fold over the lines with state `(sections, current_section,
in_code_block)`; a line whose stripped form starts with three backticks
toggles the fence flag and is kept; a stripped line equal to the
delimiter outside a fence flushes the buffer (joined, stripped, and kept
only if non-empty); anything else is buffered.  The final buffer is
flushed at the end.
-/

/-- Does the stripped line start with the fence marker? -/
def isFenceL (l : Text) : Bool := startsWith (trim l) fenceMark

/-- The segmenter state: completed sections, the current line buffer and
the `in_code_block` flag. -/
structure SplitSt where
  sections : List Text
  current : List Text
  inCode : Bool
deriving DecidableEq

/-- Initial segmenter state. -/
def initSplit : SplitSt := ⟨[], [], false⟩

/-- Closing a section: join the buffered lines, strip, and append the
result when it is non-empty. -/
def flushSec (secs : List Text) (cur : List Text) : List Text :=
  if trim (joinNl cur) = [] then secs else secs ++ [trim (joinNl cur)]

/-- One line of `split_by_delimiter`'s loop. -/
def splitStep (delim : Text) (st : SplitSt) (line : Text) : SplitSt :=
  if isFenceL line then ⟨st.sections, st.current ++ [line], !st.inCode⟩
  else if !st.inCode && decide (trim line = delim) then
    ⟨flushSec st.sections st.current, [], st.inCode⟩
  else ⟨st.sections, st.current ++ [line], st.inCode⟩

/-- `split_by_delimiter` from the source (the source's default delimiter
is `---`). -/
def split_by_delimiter (content : Text) (delim : Text) : List Text :=
  flushSec ((splitNl content).foldl (splitStep delim) initSplit).sections
    ((splitNl content).foldl (splitStep delim) initSplit).current

example :
    split_by_delimiter (txt ("a\n---\nb")) delimText = [txt ("a"), txt ("b")] := by decide
example :
    split_by_delimiter (txt ("a\n```python\n---\n```\nb")) delimText
      = [txt ("a\n```python\n---\n```\nb")] := by decide
example : split_by_delimiter (txt ("  \n \n")) delimText = [] := by decide
example : split_by_delimiter (txt ("---")) delimText = [] := by decide

/-!
## Section Cell Extractor (`extract_cells_from_section`)

The Python function walks the section with the regular expression
`^```(\w*)\n(.*?)^```$` (MULTILINE, DOTALL) via `finditer`.  In terms
of the section's lines this scan is: a match starts at the first line of
the form ```` ```tag ```` (`tag` made of word characters only) that is
followed by a line, somewhere below, that is exactly ```` ``` ````; the
match ends at that first such closing line, and scanning resumes after
it (whether or not the block's language is in the allow set — only
`last_end`, the start of un-emitted prose, stays put for skipped
blocks).  The recursion below carries the un-emitted prose as a line
buffer `buf`, which is exactly the text from `last_end` to the current
match start; `fuel` bounds the recursion depth and the wrapper passes
the line count, which always suffices because every step consumes at
least one line.
-/

/-- The kind of an output block. -/
inductive CellType
  | markdown
  | code
deriving DecidableEq

/-- An output block: `type`, `content`, and `language` (set only on
extracted code blocks). -/
structure Cell where
  type : CellType
  content : Text
  language : Option Text
deriving DecidableEq

/-- A word character of the regex class `\w` (ASCII). -/
def isWordChar (c : Char) : Bool := c.isAlphanum || c = '_'

/-- A line that can open a regex match: three backticks at the start of
the line followed only by word characters. -/
def isOpenL (l : Text) : Bool := startsWith l fenceMark && (l.drop 3).all isWordChar

/-- A line that closes a regex match: exactly three backticks. -/
def isCloseL (l : Text) : Bool := decide (l = fenceMark)

/-- Python's `str.lower()`. -/
def toLowerT (s : Text) : Text := s.map Char.toLower

/-- Emit the buffered prose as a markdown cell if it strips non-empty. -/
def emitProse (buf : List Text) : List Cell :=
  if trim (joinNl buf) = [] then []
  else [⟨CellType.markdown, trim (joinNl buf), none⟩]

/-- The match walk of `extract_cells_from_section`, on the section's
lines.  `buf` holds the lines between `last_end` and the scan point. -/
def extractGo (allow : List Text) : Nat → List Text → List Text → List Cell
  | 0, buf, rest => emitProse (buf ++ rest)
  | _ + 1, buf, [] => emitProse buf
  | fuel + 1, buf, l :: rest =>
    if isOpenL l then
      match rest.findIdx? isCloseL with
      | some j =>
        if allow.contains (toLowerT (l.drop 3)) then
          emitProse buf ++
            ⟨CellType.code, rtrim (joinNl (rest.take j)), some (toLowerT (l.drop 3))⟩ ::
              extractGo allow fuel [] (rest.drop (j + 1))
        else
          extractGo allow fuel (buf ++ l :: rest.take (j + 1)) (rest.drop (j + 1))
      | none => emitProse (buf ++ l :: rest)
    else extractGo allow fuel (buf ++ [l]) rest

/-- `extract_cells_from_section` from the source. -/
def extract_cells_from_section (sec : Text) (allow : List Text) : List Cell :=
  extractGo allow (splitNl sec).length [] (splitNl sec)

/-- The module constant `DEFAULT_CODE_LANGUAGES = {'python', 'sql'}`. -/
def defaultAllow : List Text := [txt ("python"), txt ("sql")]

example :
    extract_cells_from_section (txt ("# T\n```python\nx = 1\n```\ntail")) defaultAllow
      = [⟨CellType.markdown, txt ("# T"), none⟩,
         ⟨CellType.code, txt ("x = 1"), some (txt ("python"))⟩,
         ⟨CellType.markdown, txt ("tail"), none⟩] := by decide
example :
    extract_cells_from_section (txt ("A\n```bash\nB\n```\nC")) defaultAllow
      = [⟨CellType.markdown, txt ("A\n```bash\nB\n```\nC"), none⟩] := by decide
example :
    extract_cells_from_section (txt ("```python\nD\n```\n```sql\nQ\n```")) defaultAllow
      = [⟨CellType.code, txt ("D"), some (txt ("python"))⟩,
         ⟨CellType.code, txt ("Q"), some (txt ("sql"))⟩] := by decide

/-!
## Pipeline (`parse_markdown`) and assembler (`create_notebook`)
-/

/-- `parse_markdown` from the source: strip front matter, segment,
extract per section, and drop cells whose content strips empty. -/
def parse_markdown (content : Text) (allow : List Text) : List Cell :=
  (((split_by_delimiter (remove_front_matter content) delimText).map
      (fun s => extract_cells_from_section s allow)).flatten).filter
    (fun c => !(trim c.content).isEmpty)

/-- A notebook cell as produced by `create_notebook`: code or markdown,
its source text, and the optional cell-level language metadata. -/
structure NbCell where
  isCodeCell : Bool
  source : Text
  metaLang : Option Text
deriving DecidableEq

/-- The per-cell mapping of `create_notebook`: markdown cells carry no
metadata; code cells get `metadata['language']` only when the language
is truthy (non-empty) and differs from `python`. -/
def mkNbCell (c : Cell) : NbCell :=
  match c.type with
  | CellType.markdown => ⟨false, c.content, none⟩
  | CellType.code =>
    ⟨true, c.content,
      match c.language with
      | some l => if !l.isEmpty && !(decide (l = txt ("python"))) then some l else none
      | none => none⟩

/-- `create_notebook` from the source. -/
def create_notebook (cells : List Cell) : List NbCell := cells.map mkNbCell

example :
    parse_markdown (txt ("---\ntitle: x\n---\nbody")) defaultAllow
      = [⟨CellType.markdown, txt ("body"), none⟩] := by decide
example :
    create_notebook [⟨CellType.code, txt ("q"), some (txt ("sql"))⟩,
                     ⟨CellType.code, txt ("x"), some (txt ("python"))⟩]
      = [⟨true, txt ("q"), some (txt ("sql"))⟩, ⟨true, txt ("x"), none⟩] := by decide

/-!
## Basic lemmas about the segmenter state machine
-/

lemma splitStep_inCode (delim : Text) (st : SplitSt) (l : Text) :
    (splitStep delim st l).inCode = (if isFenceL l then !st.inCode else st.inCode) := by
  by_cases h : isFenceL l
  · simp [splitStep, h]
  · simp only [splitStep, h, if_false, Bool.false_eq_true]
    split <;> rfl

lemma decide_mod_two_succ (c : Nat) :
    decide ((c + 1) % 2 = 1) = !decide (c % 2 = 1) := by
  rcases Nat.mod_two_eq_zero_or_one c with hc | hc <;>
    simp [Nat.add_mod, hc]

/-- After folding the segmenter over any list of lines, the fence flag
is the starting flag xor-ed with the parity of the number of fence
lines seen. -/
lemma foldl_inCode (delim : Text) :
    ∀ (ls : List Text) (st : SplitSt),
      (ls.foldl (splitStep delim) st).inCode
        = Bool.xor st.inCode (decide ((ls.countP isFenceL) % 2 = 1)) := by
  intro ls
  induction ls with
  | nil => intro st; simp
  | cons l ls ih =>
    intro st
    rw [List.foldl_cons, ih, splitStep_inCode, List.countP_cons]
    by_cases h : isFenceL l
    · simp only [h, if_true, if_pos trivial, decide_mod_two_succ]
      cases st.inCode <;> cases decide ((ls.countP isFenceL) % 2 = 1) <;> rfl
    · simp [h]

/-- The input of the worked example of claim C1. -/
def exC1 : Text := txt ("# Title\n```python\nx = 1\n---\ny = 2\n```")

/-- C1: a line that trims to exactly `---` while the number of fence
lines before it is odd (i.e. the line lies strictly between an opening
fence line and its closing fence line) never ends a section — the
segmenter keeps its completed sections unchanged and appends the line
to the current buffer.  Moreover, on the spec's worked example the
segmenter yields exactly one section and extraction yields exactly one
code block, whose content is `x = 1\n---\ny = 2`. -/
theorem c1_delim_in_fence :
    (∀ (pre : List Text) (l : Text),
        trim l = delimText →
        (pre.countP isFenceL) % 2 = 1 →
        ((pre ++ [l]).foldl (splitStep delimText) initSplit).sections
            = (pre.foldl (splitStep delimText) initSplit).sections
          ∧ ((pre ++ [l]).foldl (splitStep delimText) initSplit).current
            = (pre.foldl (splitStep delimText) initSplit).current ++ [l])
    ∧ split_by_delimiter exC1 delimText = [exC1]
    ∧ (extract_cells_from_section exC1 defaultAllow).filter
          (fun c => decide (c.type = CellType.code))
        = [⟨CellType.code, txt ("x = 1\n---\ny = 2"), some (txt ("python"))⟩] := by
  refine ⟨?_, by decide, by decide⟩
  intro pre l htrim hodd
  rw [List.foldl_append, List.foldl_cons, List.foldl_nil]
  have hfence : isFenceL l = false := by
    show startsWith (trim l) fenceMark = false
    rw [htrim]; decide
  have hin : (pre.foldl (splitStep delimText) initSplit).inCode = true := by
    rw [foldl_inCode]
    simp [initSplit, hodd]
  constructor <;>
    simp [splitStep, hfence, hin]

theorem c1_witness :
    (([txt ("```python")] ++ [txt ("---")]).foldl (splitStep delimText) initSplit).sections
        = ([txt ("```python")].foldl (splitStep delimText) initSplit).sections
      ∧ (([txt ("```python")] ++ [txt ("---")]).foldl (splitStep delimText) initSplit).current
        = ([txt ("```python")].foldl (splitStep delimText) initSplit).current
            ++ [txt ("---")] :=
  c1_delim_in_fence.1 [txt ("```python")] (txt ("---")) (by decide) (by decide)

/-!
## Lemmas about the extractor
-/

lemma mem_emitProse {c : Cell} {buf : List Text} (h : c ∈ emitProse buf) :
    c.type = CellType.markdown := by
  unfold emitProse at h
  split at h
  · exact absurd h (by simp)
  · rw [List.mem_singleton] at h
    subst h
    rfl

lemma filter_code_emitProse (buf : List Text) :
    (emitProse buf).filter (fun c => decide (c.type = CellType.code)) = [] := by
  unfold emitProse
  split <;> simp

/-- Which code cells the extractor emits does not depend on the pending
prose buffer: the buffer only feeds markdown cells. -/
lemma extractGo_filter_code (allow : List Text) :
    ∀ (fuel : Nat) (buf buf' rest : List Text),
      (extractGo allow fuel buf rest).filter (fun c => decide (c.type = CellType.code))
        = (extractGo allow fuel buf' rest).filter (fun c => decide (c.type = CellType.code)) := by
  intro fuel
  induction fuel with
  | zero => intro buf buf' rest; rw [extractGo, extractGo, filter_code_emitProse, filter_code_emitProse]
  | succ fuel ih =>
    intro buf buf' rest
    cases rest with
    | nil => rw [extractGo, extractGo, filter_code_emitProse, filter_code_emitProse]
    | cons l rest =>
      by_cases hop : isOpenL l
      · simp only [extractGo, hop, if_true]
        cases hj : rest.findIdx? isCloseL with
        | none => rw [filter_code_emitProse, filter_code_emitProse]
        | some j =>
          by_cases hal : allow.contains (toLowerT (l.drop 3))
          · simp only [hal, if_true, List.filter_append, filter_code_emitProse,
              List.nil_append, List.filter_cons]
          · simp only [hal, Bool.false_eq_true, if_false]
            exact ih _ _ _
      · simp only [extractGo, hop, Bool.false_eq_true, if_false]
        exact ih _ _ _

/-- C3: every code block emitted by the extractor carries a language
that is a member of the allow set — so a fenced block whose
(lower-cased) tag is not in the allow set, including an untagged fence,
is never emitted as a code block.  On the spec's example (allow set
`{python}`, a `bash` block inside prose) the whole section text,
fence-marker lines included verbatim, comes out as a single prose
block. -/
theorem c3_nonallowed_stays_prose :
    (∀ (allow : List Text) (fuel : Nat) (buf rest : List Text) (c : Cell),
        c ∈ extractGo allow fuel buf rest → c.type = CellType.code →
        ∃ lg, c.language = some lg ∧ allow.contains lg = true)
    ∧ extract_cells_from_section (txt ("some text\n```bash\necho hi\n```\nmore"))
          [txt ("python")]
        = [⟨CellType.markdown, txt ("some text\n```bash\necho hi\n```\nmore"), none⟩] := by
  refine ⟨?_, by decide⟩
  intro allow fuel
  induction fuel with
  | zero =>
    intro buf rest c hc htype
    have h := mem_emitProse hc
    rw [htype] at h
    simp at h
  | succ fuel ih =>
    intro buf rest c hc htype
    cases rest with
    | nil =>
      have h := mem_emitProse hc
      rw [htype] at h
      simp at h
    | cons l rest =>
      by_cases hop : isOpenL l
      · simp only [extractGo, hop, if_true] at hc
        cases hj : rest.findIdx? isCloseL with
        | none =>
          rw [hj] at hc
          have h := mem_emitProse hc
          rw [htype] at h
          simp at h
        | some j =>
          rw [hj] at hc
          by_cases hal : allow.contains (toLowerT (l.drop 3))
          · simp only [hal, if_true] at hc
            rcases List.mem_append.1 hc with h | h
            · have h := mem_emitProse h
              rw [htype] at h
              simp at h
            · rcases List.mem_cons.1 h with h | h
              · subst h
                exact ⟨toLowerT (l.drop 3), rfl, hal⟩
              · exact ih _ _ c h htype
          · simp only [hal, Bool.false_eq_true, if_false] at hc
            exact ih _ _ c hc htype
      · simp only [extractGo, hop, Bool.false_eq_true, if_false] at hc
        exact ih _ _ c hc htype

theorem c3_witness :
    ∃ lg, (⟨CellType.code, txt ("echo hi"), some (txt ("bash"))⟩ : Cell).language = some lg
      ∧ [txt ("bash")].contains lg = true :=
  c3_nonallowed_stays_prose.1 [txt ("bash")] 3 []
    [txt ("```bash"), txt ("echo hi"), txt ("```")]
    ⟨CellType.code, txt ("echo hi"), some (txt ("bash"))⟩ (by decide) (by decide)

/-- C7: the extraction decision and the recorded language depend only on
the lower-casing of the declared tag.  If two opening fence lines have
tags with the same lower-casing and the tag is allowed, extraction
produces identical output; if it is not allowed, the emitted code blocks
are also identical (only surrounding prose text can differ, by the raw
fence line kept inside it).  Concretely, ```` ```Python ```` and
```` ```python ```` extract to the same single code block, whose
recorded language is the lower-cased `python`. -/
theorem c7_case_insensitive :
    (∀ (allow : List Text) (fuel : Nat) (buf rest : List Text) (l l' : Text) (j : Nat),
        isOpenL l = true → isOpenL l' = true →
        toLowerT (l.drop 3) = toLowerT (l'.drop 3) →
        rest.findIdx? isCloseL = some j →
        allow.contains (toLowerT (l.drop 3)) = true →
        extractGo allow (fuel + 1) buf (l :: rest)
          = extractGo allow (fuel + 1) buf (l' :: rest))
    ∧ (∀ (allow : List Text) (fuel : Nat) (buf rest : List Text) (l l' : Text),
        isOpenL l = true → isOpenL l' = true →
        toLowerT (l.drop 3) = toLowerT (l'.drop 3) →
        (extractGo allow (fuel + 1) buf (l :: rest)).filter
            (fun c => decide (c.type = CellType.code))
          = (extractGo allow (fuel + 1) buf (l' :: rest)).filter
            (fun c => decide (c.type = CellType.code)))
    ∧ extract_cells_from_section (txt ("```Python\nx = 1\n```")) defaultAllow
        = extract_cells_from_section (txt ("```python\nx = 1\n```")) defaultAllow
    ∧ extract_cells_from_section (txt ("```Python\nx = 1\n```")) defaultAllow
        = [⟨CellType.code, txt ("x = 1"), some (txt ("python"))⟩] := by
  refine ⟨?_, ?_, by decide, by decide⟩
  · intro allow fuel buf rest l l' j hop hop' hlow hj hal
    simp only [extractGo, hop, hop', if_true, hj]
    rw [← hlow, hal]
    simp
  · intro allow fuel buf rest l l' hop hop' hlow
    simp only [extractGo, hop, hop', if_true]
    cases hj : rest.findIdx? isCloseL with
    | none =>
      rw [filter_code_emitProse, filter_code_emitProse]
    | some j =>
      rw [← hlow]
      by_cases hal : allow.contains (toLowerT (l.drop 3))
      · rw [hal]
        simp
      · rw [Bool.not_eq_true] at hal
        rw [hal]
        simp only [Bool.false_eq_true, if_false]
        exact extractGo_filter_code allow fuel _ _ _

theorem c7_witness :
    extractGo defaultAllow 2 [] [txt ("```Python"), txt ("x = 1"), txt ("```")]
      = extractGo defaultAllow 2 [] [txt ("```python"), txt ("x = 1"), txt ("```")] :=
  c7_case_insensitive.1 defaultAllow 1 [] [txt ("x = 1"), txt ("```")]
    (txt ("```Python")) (txt ("```python")) 1
    (by decide) (by decide) (by decide) (by decide) (by decide)

/-- C10: an opening fence line preceded by whitespace is never an
extraction match (the extractor's pattern anchors the three backticks at
the start of the line), while the segmenter's fence toggle accepts any
line whose stripped form starts with the marker; hence an indented
fenced block always stays inside the surrounding prose block, as the
concrete run shows. -/
theorem c10_indented_fence :
    (∀ (c : Char) (cs : Text), isWS c = true → isOpenL (c :: cs) = false)
    ∧ (∀ (delim : Text) (st : SplitSt) (l : Text), isFenceL l = true →
        splitStep delim st l = ⟨st.sections, st.current ++ [l], !st.inCode⟩)
    ∧ parse_markdown (txt ("intro\n  ```python\nx = 1\n  ```")) defaultAllow
        = [⟨CellType.markdown, txt ("intro\n  ```python\nx = 1\n  ```"), none⟩] := by
  refine ⟨?_, ?_, by decide⟩
  · intro c cs h
    have hc : ¬(c = '`') := by
      intro hc
      subst hc
      simp [isWS] at h
    have hm : fenceMark = '`' :: '`' :: '`' :: [] := by decide
    simp [isOpenL, hm, startsWith, hc]
  · intro delim st l h
    simp [splitStep, h]

theorem c10_witness :
    isOpenL (' ' :: txt ("```python")) = false
      ∧ splitStep delimText initSplit (txt ("  ```python"))
          = ⟨initSplit.sections, initSplit.current ++ [txt ("  ```python")], !initSplit.inCode⟩ :=
  ⟨c10_indented_fence.1 ' ' (txt ("```python")) (by decide),
   c10_indented_fence.2.1 delimText initSplit (txt ("  ```python")) (by decide)⟩

/-!
## Lemmas about `splitNl`, `joinNl` and the front-matter scan
-/

lemma splitNl_ne_nil : ∀ s : Text, splitNl s ≠ [] := by
  intro s
  cases s with
  | nil => simp [splitNl]
  | cons c cs =>
    unfold splitNl
    by_cases h : c = '\n'
    · simp [h]
    · simp only [h, if_false]
      cases hm : splitNl cs with
      | nil => simp
      | cons m ms => simp

lemma joinNl_splitNl : ∀ s : Text, joinNl (splitNl s) = s := by
  intro s
  induction s with
  | nil => rfl
  | cons c cs ih =>
    unfold splitNl
    by_cases h : c = '\n'
    · rw [if_pos h]
      cases hm : splitNl cs with
      | nil => exact absurd hm (splitNl_ne_nil cs)
      | cons m ms =>
        rw [hm] at ih
        subst h
        show joinNl ([] :: m :: ms) = '\n' :: cs
        rw [joinNl, List.nil_append, ih]
    · rw [if_neg h]
      cases hm : splitNl cs with
      | nil => exact absurd hm (splitNl_ne_nil cs)
      | cons m ms =>
        rw [hm] at ih
        cases ms with
        | nil =>
          show joinNl [c :: m] = c :: cs
          rw [joinNl]
          rw [joinNl] at ih
          rw [ih]
        | cons y ys =>
          show joinNl ((c :: m) :: y :: ys) = c :: cs
          rw [joinNl, List.cons_append]
          rw [joinNl] at ih
          rw [ih]

/-- A line whose stripped form is exactly the delimiter. -/
def isDelimL (l : Text) : Bool := decide (trim l = delimText)

lemma fmScan_none_true :
    ∀ (ls : List Text) (i : Nat), ls.countP isDelimL = 0 → fmScan ls i true = none := by
  intro ls
  induction ls with
  | nil => intro i _; rfl
  | cons l ls ih =>
    intro i h
    rw [List.countP_cons] at h
    by_cases hd : trim l = delimText
    · simp [isDelimL, hd] at h
    · rw [fmScan, if_neg hd]
      exact ih (i + 1) (by simp [isDelimL, hd] at h; simpa [isDelimL] using h)

lemma fmScan_none_false :
    ∀ (ls : List Text) (i : Nat), ls.countP isDelimL ≤ 1 → fmScan ls i false = none := by
  intro ls
  induction ls with
  | nil => intro i _; rfl
  | cons l ls ih =>
    intro i h
    rw [List.countP_cons] at h
    by_cases hd : trim l = delimText
    · rw [fmScan, if_pos hd]
      simp only [Bool.false_eq_true, if_false]
      refine fmScan_none_true ls (i + 1) ?_
      simp only [isDelimL, hd, decide_True, if_true] at h
      omega
    · rw [fmScan, if_neg hd]
      refine ih (i + 1) ?_
      simp only [isDelimL, hd, decide_False, if_false] at h
      simpa [isDelimL] using h

lemma fmScan_some_true :
    ∀ (ls : List Text) (i : Nat), 1 ≤ ls.countP isDelimL →
      (fmScan ls i true).isSome = true := by
  intro ls
  induction ls with
  | nil => intro i h; simp [List.countP_nil] at h
  | cons l ls ih =>
    intro i h
    rw [List.countP_cons] at h
    by_cases hd : trim l = delimText
    · rw [fmScan, if_pos hd]
      simp
    · rw [fmScan, if_neg hd]
      refine ih (i + 1) ?_
      simp only [isDelimL, hd, decide_False, if_false] at h
      simpa [isDelimL] using h

lemma fmScan_some_false :
    ∀ (ls : List Text) (i : Nat), 2 ≤ ls.countP isDelimL →
      (fmScan ls i false).isSome = true := by
  intro ls
  induction ls with
  | nil => intro i h; simp [List.countP_nil] at h
  | cons l ls ih =>
    intro i h
    rw [List.countP_cons] at h
    by_cases hd : trim l = delimText
    · rw [fmScan, if_pos hd]
      simp only [Bool.false_eq_true, if_false]
      refine fmScan_some_true ls (i + 1) ?_
      simp only [isDelimL, hd, decide_True, if_true] at h
      omega
    · rw [fmScan, if_neg hd]
      refine ih (i + 1) ?_
      simp only [isDelimL, hd, decide_False, if_false] at h
      simpa [isDelimL] using h

lemma fmScan_ge :
    ∀ (ls : List Text) (i : Nat) (b : Bool) (e : Nat),
      fmScan ls i b = some e → i + 1 ≤ e := by
  intro ls
  induction ls with
  | nil => intro i b e h; exact absurd h (by simp [fmScan])
  | cons l ls ih =>
    intro i b e h
    rw [fmScan] at h
    by_cases hd : trim l = delimText
    · rw [if_pos hd] at h
      cases b with
      | true =>
        simp only [if_true] at h
        injection h with h
        omega
      | false =>
        simp only [Bool.false_eq_true, if_false] at h
        have := ih (i + 1) true e h
        omega
    · rw [if_neg hd] at h
      have := ih (i + 1) b e h
      omega

lemma joinNl_tail_le (ls : List Text) :
    (joinNl (ls.drop 1)).length ≤ (joinNl ls).length := by
  cases ls with
  | nil => simp
  | cons l lt =>
    cases lt with
    | nil => simp [joinNl]
    | cons y ys =>
      show (joinNl (y :: ys)).length ≤ (joinNl (l :: y :: ys)).length
      rw [joinNl]
      simp only [List.length_append, List.length_cons]
      omega

lemma joinNl_drop_le :
    ∀ (k : Nat) (ls : List Text), (joinNl (ls.drop k)).length ≤ (joinNl ls).length := by
  intro k
  induction k with
  | zero => intro ls; simp
  | succ k ih =>
    intro ls
    cases ls with
    | nil => simp
    | cons l lt =>
      calc (joinNl ((l :: lt).drop (k + 1))).length
          = (joinNl (lt.drop k)).length := by rw [List.drop_succ_cons]
        _ ≤ (joinNl lt).length := ih lt
        _ ≤ (joinNl (l :: lt)).length := by
              have := joinNl_tail_le (l :: lt)
              simpa using this

/-- The concrete input refuting claim C2 as stated. -/
def exC2 : Text := txt ("---x\n---\n---\nbody")

/-- Counterexample to C2 as stated: on `---x\n---\n---\nbody` the first
line is `---x`, which does not trim to the delimiter, yet the
front-matter stripper changes the text (it returns `body`). -/
theorem c2_counterexample :
    remove_front_matter exC2 = txt ("body")
      ∧ remove_front_matter exC2 ≠ exC2
      ∧ (splitNl exC2).head? = some (txt ("---x"))
      ∧ trim (txt ("---x")) ≠ delimText := by
  exact ⟨by decide, by decide, by decide, by decide⟩

/-- C2 (amended): the front-matter stripper changes the text if and only
if the text starts with the three characters `---` (a `startswith`
check, not a whole-line check) and at least two of its lines trim to
exactly `---`. -/
theorem c2_amended (content : Text) :
    remove_front_matter content ≠ content
      ↔ (startsWith content delimText = true
          ∧ 2 ≤ (splitNl content).countP isDelimL) := by
  constructor
  · intro hne
    by_cases hsw : startsWith content delimText
    · refine ⟨hsw, ?_⟩
      by_contra hcount
      push_neg at hcount
      have hnone : fmScan (splitNl content) 0 false = none :=
        fmScan_none_false _ 0 (by omega)
      exact hne (by rw [remove_front_matter, if_pos hsw, hnone])
    · exact absurd (by rw [remove_front_matter, if_neg hsw]) hne
  · rintro ⟨hsw, hcount⟩
    have hsome := fmScan_some_false (splitNl content) 0 hcount
    obtain ⟨e, he⟩ := Option.isSome_iff_exists.1 hsome
    have hge : 1 ≤ e := fmScan_ge _ 0 false e he
    have hres : remove_front_matter content = joinNl ((splitNl content).drop e) := by
      rw [remove_front_matter, if_pos hsw, he]
    cases hl : splitNl content with
    | nil => exact absurd hl (splitNl_ne_nil content)
    | cons l0 rest =>
      cases rest with
      | nil =>
        have : (splitNl content).countP isDelimL ≤ 1 := by
          rw [hl]
          have := List.countP_le_length (l := [l0]) (p := isDelimL)
          simpa using this
        omega
      | cons y ys =>
        intro heq
        have hlen := congrArg List.length heq
        rw [hres] at hlen
        have hdrop : (splitNl content).drop e = (y :: ys).drop (e - 1) := by
          rw [hl]
          obtain ⟨e', rfl⟩ : ∃ e', e = e' + 1 := ⟨e - 1, by omega⟩
          simp
        rw [hdrop] at hlen
        have h1 : (joinNl ((y :: ys).drop (e - 1))).length ≤ (joinNl (y :: ys)).length :=
          joinNl_drop_le (e - 1) (y :: ys)
        have h2 : content = joinNl (l0 :: y :: ys) := by
          rw [← hl, joinNl_splitNl]
        rw [h2, joinNl] at hlen
        simp only [List.length_append, List.length_cons] at hlen
        omega

theorem c2_witness :
    remove_front_matter (txt ("---\na\n---\nb")) ≠ txt ("---\na\n---\nb") :=
  (c2_amended (txt ("---\na\n---\nb"))).mpr ⟨by decide, by decide⟩

/-- C9: a text that begins with the opening delimiter but has no later
line trimming to exactly `---` is returned completely unchanged — the
stripper never removes part of an unterminated front-matter block. -/
theorem c9_unterminated_front_matter (content : Text) :
    startsWith content delimText = true →
    (∀ l ∈ (splitNl content).drop 1, ¬(trim l = delimText)) →
    remove_front_matter content = content := by
  intro hsw hlater
  rw [remove_front_matter, if_pos hsw]
  have hcount : (splitNl content).countP isDelimL ≤ 1 := by
    cases hl : splitNl content with
    | nil => simp
    | cons l0 rest =>
      have hrest : rest.countP isDelimL = 0 := by
        refine List.countP_eq_zero.2 ?_
        intro l hlmem
        have : l ∈ (splitNl content).drop 1 := by rw [hl]; simpa using hlmem
        simpa [isDelimL] using hlater l this
      rw [List.countP_cons, hrest]
      split <;> omega
  rw [fmScan_none_false _ 0 hcount]

theorem c9_witness :
    remove_front_matter (txt ("---\ntitle: x")) = txt ("---\ntitle: x") :=
  c9_unterminated_front_matter (txt ("---\ntitle: x")) (by decide) (by decide)

/-!
## Whitespace lemmas and claims C5, C8, C6
-/

lemma all_splitNl (p : Char → Bool) :
    ∀ s : Text, s.all p = true → ∀ l ∈ splitNl s, l.all p = true := by
  intro s
  induction s with
  | nil =>
    intro _ l hl
    simp only [splitNl, List.mem_singleton] at hl
    subst hl
    rfl
  | cons c cs ih =>
    intro hall l hl
    simp only [List.all_cons, Bool.and_eq_true] at hall
    unfold splitNl at hl
    by_cases h : c = '\n'
    · rw [if_pos h] at hl
      rcases List.mem_cons.1 hl with rfl | hl
      · rfl
      · exact ih hall.2 l hl
    · rw [if_neg h] at hl
      cases hm : splitNl cs with
      | nil => exact absurd hm (splitNl_ne_nil cs)
      | cons m ms =>
        rw [hm] at hl
        rcases List.mem_cons.1 hl with rfl | hl
        · have hm' : m.all p = true :=
            ih hall.2 m (by rw [hm]; exact List.mem_cons_self _ _)
          simp [List.all_cons, hall.1, hm']
        · exact ih hall.2 l (by rw [hm]; exact List.mem_cons_of_mem _ hl)

lemma ltrim_nil_of_all : ∀ s : Text, s.all isWS = true → ltrim s = [] := by
  intro s
  induction s with
  | nil => intro _; rfl
  | cons c cs ih =>
    intro h
    simp only [List.all_cons, Bool.and_eq_true] at h
    show List.dropWhile isWS (c :: cs) = []
    rw [List.dropWhile_cons, if_pos h.1]
    exact ih h.2

lemma trim_nil_of_all (s : Text) (h : s.all isWS = true) : trim s = [] := by
  rw [trim, ltrim_nil_of_all s h]
  rfl

lemma all_isWS_joinNl :
    ∀ ls : List Text, (∀ l ∈ ls, l.all isWS = true) → (joinNl ls).all isWS = true := by
  intro ls
  induction ls with
  | nil => intro _; rfl
  | cons l lt ih =>
    intro h
    cases lt with
    | nil => exact h l (List.mem_singleton.2 rfl)
    | cons y ys =>
      rw [joinNl]
      rw [List.all_append, List.all_cons]
      refine by simp [h l (List.mem_cons_self _ _),
        ih (fun x hx => h x (List.mem_cons_of_mem _ hx)), isWS]

lemma ws_line_not_fence (l : Text) (h : l.all isWS = true) : isFenceL l = false := by
  rw [isFenceL, trim_nil_of_all l h]
  decide

lemma ws_line_not_delim (l : Text) (h : l.all isWS = true) : ¬(trim l = delimText) := by
  rw [trim_nil_of_all l h]
  decide

lemma foldl_ws_lines :
    ∀ (lines : List Text), (∀ l ∈ lines, l.all isWS = true) →
      ∀ (cur : List Text),
        lines.foldl (splitStep delimText) ⟨[], cur, false⟩ = ⟨[], cur ++ lines, false⟩ := by
  intro lines
  induction lines with
  | nil => intro _ cur; simp
  | cons l lt ih =>
    intro h cur
    have hl := h l (List.mem_cons_self _ _)
    rw [List.foldl_cons]
    have hstep : splitStep delimText ⟨[], cur, false⟩ l = ⟨[], cur ++ [l], false⟩ := by
      simp [splitStep, ws_line_not_fence l hl, ws_line_not_delim l hl]
    rw [hstep, ih (fun x hx => h x (List.mem_cons_of_mem _ hx)) (cur ++ [l])]
    simp

lemma startsWith_delim_false_of_ws (content : Text) (h : content.all isWS = true) :
    startsWith content delimText = false := by
  cases content with
  | nil => decide
  | cons c cs =>
    simp only [List.all_cons, Bool.and_eq_true] at h
    have hc : ¬(c = '-') := by
      intro hc
      subst hc
      exact absurd h.1 (by decide)
    have hd : delimText = '-' :: '-' :: '-' :: [] := by decide
    rw [hd]
    simp [startsWith, hc]

/-- C5: every block in the pipeline's final output has content that is
non-empty after stripping, and an all-whitespace input yields the empty
block list. -/
theorem c5_no_empty_blocks :
    (∀ (content : Text) (allow : List Text) (c : Cell),
        c ∈ parse_markdown content allow → ¬(trim c.content = []))
    ∧ (∀ (content : Text) (allow : List Text),
        content.all isWS = true → parse_markdown content allow = []) := by
  constructor
  · intro content allow c hc
    rw [parse_markdown] at hc
    have h2 := (List.mem_filter.mp hc).2
    intro heq
    rw [heq] at h2
    simp at h2
  · intro content allow h
    have hrmf : remove_front_matter content = content := by
      rw [remove_front_matter]
      rw [if_neg (by rw [startsWith_delim_false_of_ws content h]; simp)]
    have hlines : ∀ l ∈ splitNl content, l.all isWS = true := all_splitNl isWS content h
    have hsecs : split_by_delimiter content delimText = [] := by
      rw [split_by_delimiter]
      have hfold := foldl_ws_lines (splitNl content) hlines []
      rw [show (initSplit : SplitSt) = ⟨[], [], false⟩ from rfl, hfold]
      show flushSec [] ([] ++ splitNl content) = []
      rw [List.nil_append, flushSec,
        if_pos (trim_nil_of_all _ (all_isWS_joinNl _ hlines))]
    rw [parse_markdown, hrmf, hsecs]
    rfl

theorem c5_witness :
    ¬(trim (Cell.mk CellType.markdown (txt ("x")) none).content = [])
      ∧ parse_markdown (txt ("  \n \n")) defaultAllow = [] :=
  ⟨c5_no_empty_blocks.1 (txt ("x")) defaultAllow
      (Cell.mk CellType.markdown (txt ("x")) none) (by decide),
   c5_no_empty_blocks.2 (txt ("  \n \n")) defaultAllow (by decide)⟩

/-- C8: the parsing core is total by construction (every function of the
embedding is a total function); a document whose segmentation is empty
yields the empty block list rather than an error, and an unterminated
fence at document end is tolerated — the remaining text is still
captured by the final flush, with the fence flag left open. -/
theorem c8_total_pipeline :
    (∀ (content : Text) (allow : List Text),
        split_by_delimiter (remove_front_matter content) delimText = [] →
        parse_markdown content allow = [])
    ∧ split_by_delimiter (txt ("a\n```python\nb")) delimText = [txt ("a\n```python\nb")]
    ∧ ((splitNl (txt ("a\n```python\nb"))).foldl (splitStep delimText) initSplit).inCode
        = true := by
  refine ⟨?_, by decide, by decide⟩
  intro content allow h
  rw [parse_markdown, h]
  rfl

theorem c8_witness : parse_markdown (txt ("---")) defaultAllow = [] :=
  c8_total_pipeline.1 (txt ("---")) defaultAllow (by decide)

/-- The pipeline run refuting claim C6 as stated: with allow set `{""}`
the untagged block becomes a code block with language `""`, which
differs from `python` and yet receives no cell-level metadata, because
the source guards the metadata with Python truthiness of the language
string. -/
theorem c6_counterexample :
    parse_markdown (txt ("```\nx\n```")) [([] : Text)]
        = [⟨CellType.code, txt ("x"), some []⟩]
      ∧ ¬(([] : Text) = txt ("python"))
      ∧ create_notebook [⟨CellType.code, txt ("x"), some []⟩]
          = [⟨true, txt ("x"), none⟩] := by
  exact ⟨by decide, by decide, by decide⟩

/-- C6 (amended): a code block whose language is non-empty and differs
from `python` produces a code cell carrying that language as metadata;
a code block whose language equals `python` — or is the empty string —
produces a code cell with no such metadata. -/
theorem c6_amended :
    ∀ (cells : List Cell) (i : Nat) (c : Cell) (lg : Text),
      cells[i]? = some c → c.type = CellType.code → c.language = some lg →
      ∃ nb : NbCell, (create_notebook cells)[i]? = some nb
        ∧ nb.isCodeCell = true
        ∧ nb.metaLang = (if lg = [] ∨ lg = txt ("python") then none else some lg) := by
  intro cells i c lg hget htype hlang
  obtain ⟨t, ct, lgo⟩ := c
  dsimp at htype hlang
  subst htype
  subst hlang
  refine ⟨mkNbCell ⟨CellType.code, ct, some lg⟩, ?_, ?_, ?_⟩
  · rw [create_notebook, List.getElem?_map, hget]
    rfl
  · rfl
  · show (if !lg.isEmpty && !(decide (lg = txt ("python"))) then some lg else none)
        = (if lg = [] ∨ lg = txt ("python") then none else some lg)
    by_cases h1 : lg = []
    · subst h1
      simp
    · by_cases h2 : lg = txt ("python")
      · simp [h2]
      · have hne : lg.isEmpty = false := by
          cases lg with
          | nil => exact absurd rfl h1
          | cons a as => rfl
        simp [h1, h2, hne]

theorem c6_witness :
    ∃ nb : NbCell,
      (create_notebook [⟨CellType.code, txt ("q"), some (txt ("sql"))⟩])[0]? = some nb
        ∧ nb.isCodeCell = true
        ∧ nb.metaLang
            = (if txt ("sql") = [] ∨ txt ("sql") = txt ("python") then none
               else some (txt ("sql"))) :=
  c6_amended [⟨CellType.code, txt ("q"), some (txt ("sql"))⟩] 0
    ⟨CellType.code, txt ("q"), some (txt ("sql"))⟩ (txt ("sql"))
    (by decide) (by decide) (by decide)

/-!
## Structural lemmas about `splitNl` for claim C4
-/

lemma splitNl_cons_nl (cs : Text) : splitNl ('\n' :: cs) = [] :: splitNl cs := by
  show (if '\n' = '\n' then [] :: splitNl cs
        else match splitNl cs with
             | [] => [['\n']]
             | l :: ls => ('\n' :: l) :: ls) = [] :: splitNl cs
  rw [if_pos rfl]

lemma splitNl_cons (c : Char) (cs : Text) (h : ¬(c = '\n')) :
    splitNl (c :: cs)
      = (match splitNl cs with
         | [] => [[c]]
         | l :: ls => (c :: l) :: ls) := by
  show (if c = '\n' then [] :: splitNl cs
        else match splitNl cs with
             | [] => [[c]]
             | l :: ls => (c :: l) :: ls)
      = (match splitNl cs with
         | [] => [[c]]
         | l :: ls => (c :: l) :: ls)
  rw [if_neg h]

lemma splitNl_append_nl : ∀ a b : Text, splitNl (a ++ '\n' :: b) = splitNl a ++ splitNl b := by
  intro a b
  induction a with
  | nil =>
    show splitNl ('\n' :: b) = splitNl [] ++ splitNl b
    rw [splitNl_cons_nl]
    rfl
  | cons c cs ih =>
    show splitNl (c :: (cs ++ '\n' :: b)) = splitNl (c :: cs) ++ splitNl b
    by_cases h : c = '\n'
    · subst h
      rw [splitNl_cons_nl, splitNl_cons_nl, ih]
      rfl
    · rw [splitNl_cons c _ h, splitNl_cons c cs h, ih]
      cases hm : splitNl cs with
      | nil => exact absurd hm (splitNl_ne_nil cs)
      | cons m ms => simp

lemma no_nl_splitNl : ∀ (s : Text) (l : Text), l ∈ splitNl s → '\n' ∉ l := by
  intro s
  induction s with
  | nil =>
    intro l hl
    simp only [splitNl, List.mem_singleton] at hl
    subst hl
    simp
  | cons c cs ih =>
    intro l hl
    unfold splitNl at hl
    by_cases h : c = '\n'
    · rw [if_pos h] at hl
      rcases List.mem_cons.1 hl with rfl | hl
      · simp
      · exact ih l hl
    · rw [if_neg h] at hl
      cases hm : splitNl cs with
      | nil => exact absurd hm (splitNl_ne_nil cs)
      | cons m ms =>
        rw [hm] at hl
        rcases List.mem_cons.1 hl with rfl | hl
        · intro hmem
          rcases List.mem_cons.1 hmem with heq | hmem
          · exact h heq.symm
          · exact ih m (by rw [hm]; exact List.mem_cons_self _ _) hmem
        · exact ih l (by rw [hm]; exact List.mem_cons_of_mem _ hl)

lemma splitNl_of_no_nl : ∀ l : Text, '\n' ∉ l → splitNl l = [l] := by
  intro l
  induction l with
  | nil => intro _; rfl
  | cons c cs ih =>
    intro h
    have hc : ¬(c = '\n') := fun hc => h (by rw [hc]; exact List.mem_cons_self _ _)
    have hcs : '\n' ∉ cs := fun hm => h (List.mem_cons_of_mem _ hm)
    rw [splitNl_cons c cs hc, ih hcs]

lemma splitNl_joinNl_of :
    ∀ ls : List Text, ls ≠ [] → (∀ l ∈ ls, '\n' ∉ l) → splitNl (joinNl ls) = ls := by
  intro ls
  induction ls with
  | nil => intro h _; exact absurd rfl h
  | cons l lt ih =>
    intro _ h
    cases lt with
    | nil =>
      show splitNl (joinNl [l]) = [l]
      rw [joinNl]
      exact splitNl_of_no_nl l (h l (List.mem_singleton.2 rfl))
    | cons y ys =>
      rw [joinNl, splitNl_append_nl,
        splitNl_of_no_nl l (h l (List.mem_cons_self _ _)),
        ih (by simp) (fun x hx => h x (List.mem_cons_of_mem _ hx))]
      rfl

/-!
## Idempotence and commutation of the trimming primitives
-/

lemma ltrim_cons_ws (c : Char) (cs : Text) (h : isWS c = true) :
    ltrim (c :: cs) = ltrim cs := by
  show List.dropWhile isWS (c :: cs) = List.dropWhile isWS cs
  rw [List.dropWhile_cons, if_pos h]

lemma ltrim_cons_not_ws (c : Char) (cs : Text) (h : ¬(isWS c = true)) :
    ltrim (c :: cs) = c :: cs := by
  show List.dropWhile isWS (c :: cs) = c :: cs
  rw [List.dropWhile_cons, if_neg h]

lemma rtrim_cons_of_nil (c : Char) (cs : Text) (h : rtrim cs = []) :
    rtrim (c :: cs) = (if isWS c then [] else [c]) := by
  show (match rtrim cs with
        | [] => if isWS c then [] else [c]
        | r :: rs => c :: r :: rs) = (if isWS c then [] else [c])
  rw [h]

lemma rtrim_cons_of_cons (c : Char) (cs : Text) (r : Char) (rs : Text)
    (h : rtrim cs = r :: rs) : rtrim (c :: cs) = c :: r :: rs := by
  show (match rtrim cs with
        | [] => if isWS c then [] else [c]
        | r :: rs => c :: r :: rs) = c :: r :: rs
  rw [h]

lemma ltrim_ltrim : ∀ s : Text, ltrim (ltrim s) = ltrim s := by
  intro s
  induction s with
  | nil => rfl
  | cons c cs ih =>
    by_cases h : isWS c = true
    · rw [ltrim_cons_ws c cs h]
      exact ih
    · rw [ltrim_cons_not_ws c cs h, ltrim_cons_not_ws c cs h]

lemma rtrim_rtrim : ∀ s : Text, rtrim (rtrim s) = rtrim s := by
  intro s
  induction s with
  | nil => rfl
  | cons c cs ih =>
    cases hm : rtrim cs with
    | nil =>
      rw [rtrim_cons_of_nil c cs hm]
      by_cases h : isWS c = true
      · rw [if_pos h]
        rfl
      · rw [if_neg h]
        rw [rtrim_cons_of_nil c [] rfl, if_neg h]
    | cons r rs =>
      rw [rtrim_cons_of_cons c cs r rs hm]
      rw [hm] at ih
      exact rtrim_cons_of_cons c (r :: rs) r rs ih

lemma ltrim_rtrim_comm : ∀ s : Text, ltrim (rtrim s) = rtrim (ltrim s) := by
  intro s
  induction s with
  | nil => rfl
  | cons c cs ih =>
    by_cases h : isWS c = true
    · rw [ltrim_cons_ws c cs h, ← ih]
      cases hm : rtrim cs with
      | nil =>
        rw [rtrim_cons_of_nil c cs hm, if_pos h]
      | cons r rs =>
        rw [rtrim_cons_of_cons c cs r rs hm, ltrim_cons_ws c (r :: rs) h]
    · rw [ltrim_cons_not_ws c cs h]
      cases hm : rtrim cs with
      | nil =>
        rw [rtrim_cons_of_nil c cs hm, if_neg h]
        exact ltrim_cons_not_ws c [] h
      | cons r rs =>
        rw [rtrim_cons_of_cons c cs r rs hm]
        exact ltrim_cons_not_ws c (r :: rs) h

lemma trim_trim : ∀ s : Text, trim (trim s) = trim s := by
  intro s
  show rtrim (ltrim (rtrim (ltrim s))) = rtrim (ltrim s)
  rw [ltrim_rtrim_comm, ltrim_ltrim, rtrim_rtrim]

lemma trim_ltrim (s : Text) : trim (ltrim s) = trim s := by
  show rtrim (ltrim (ltrim s)) = trim s
  rw [ltrim_ltrim]
  rfl

lemma trim_rtrim (s : Text) : trim (rtrim s) = trim s := by
  show rtrim (ltrim (rtrim s)) = trim s
  rw [ltrim_rtrim_comm, rtrim_rtrim]
  rfl

lemma rtrim_nil_iff : ∀ s : Text, rtrim s = [] ↔ s.all isWS = true := by
  intro s
  induction s with
  | nil => simp [rtrim]
  | cons c cs ih =>
    cases hm : rtrim cs with
    | nil =>
      have hall : cs.all isWS = true := ih.1 hm
      rw [rtrim_cons_of_nil c cs hm]
      by_cases h : isWS c = true
      · simp [h, hall]
      · simp [h, List.all_cons]
    | cons r rs =>
      have hnall : ¬(cs.all isWS = true) := by
        intro hall
        rw [ih.2 hall] at hm
        cases hm
      rw [rtrim_cons_of_cons c cs r rs hm]
      simp [List.all_cons, hnall]

/-!
## Line-level description of stripping a joined buffer
-/

/-- A line consisting of whitespace only. -/
def lineWS (l : Text) : Bool := l.all isWS

/-- The line-level effect of `rtrim` on a list of lines: trailing
whitespace-only lines vanish and the last surviving line is
right-trimmed. -/
def rtrimLines : List Text → List Text
  | [] => []
  | l :: ls =>
    match rtrimLines ls with
    | [] => if lineWS l then [] else [rtrim l]
    | r :: rs => l :: r :: rs

lemma rtrimLines_cons_of_nil (l : Text) (ls : List Text) (h : rtrimLines ls = []) :
    rtrimLines (l :: ls) = (if lineWS l then [] else [rtrim l]) := by
  show (match rtrimLines ls with
        | [] => if lineWS l then [] else [rtrim l]
        | r :: rs => l :: r :: rs) = (if lineWS l then [] else [rtrim l])
  rw [h]

lemma rtrimLines_cons_of_cons (l : Text) (ls : List Text) (r : Text) (rs : List Text)
    (h : rtrimLines ls = r :: rs) : rtrimLines (l :: ls) = l :: r :: rs := by
  show (match rtrimLines ls with
        | [] => if lineWS l then [] else [rtrim l]
        | r :: rs => l :: r :: rs) = l :: r :: rs
  rw [h]

lemma rtrimLines_nil_iff : ∀ ls : List Text, rtrimLines ls = [] ↔ ls.all lineWS = true := by
  intro ls
  induction ls with
  | nil => simp [rtrimLines]
  | cons l ls ih =>
    cases hm : rtrimLines ls with
    | nil =>
      have hall : ls.all lineWS = true := ih.1 hm
      rw [rtrimLines_cons_of_nil l ls hm]
      by_cases h : lineWS l = true
      · simp [h, hall]
      · simp [h, List.all_cons]
    | cons r rs =>
      have hnall : ¬(ls.all lineWS = true) := by
        intro hall
        rw [ih.2 hall] at hm
        cases hm
      rw [rtrimLines_cons_of_cons l ls r rs hm]
      simp [List.all_cons, hnall]

lemma splitNl_all_lineWS_iff (s : Text) :
    (splitNl s).all lineWS = true ↔ s.all isWS = true := by
  constructor
  · intro h
    have h2 : ∀ l ∈ splitNl s, l.all isWS = true := by
      intro l hl
      simpa [lineWS] using List.all_eq_true.1 h l hl
    have h3 := all_isWS_joinNl (splitNl s) h2
    rwa [joinNl_splitNl] at h3
  · intro h
    refine List.all_eq_true.2 ?_
    intro l hl
    simpa [lineWS] using all_splitNl isWS s h l hl

lemma splitNl_ltrim : ∀ s : Text,
    splitNl (ltrim s)
      = (match (splitNl s).dropWhile lineWS with
         | [] => [[]]
         | l :: r => ltrim l :: r) := by
  intro s
  induction s with
  | nil => rfl
  | cons c cs ih =>
    by_cases h : isWS c = true
    · rw [ltrim_cons_ws c cs h, ih]
      by_cases hn : c = '\n'
      · subst hn
        rw [splitNl_cons_nl, List.dropWhile_cons,
          if_pos (show lineWS ([] : Text) = true from rfl)]
      · cases hm : splitNl cs with
        | nil => exact absurd hm (splitNl_ne_nil cs)
        | cons m ms =>
          have h3 : splitNl (c :: cs) = (c :: m) :: ms := by
            rw [splitNl_cons c cs hn, hm]
          rw [h3, List.dropWhile_cons, List.dropWhile_cons]
          have hws : lineWS (c :: m) = lineWS m := by
            simp [lineWS, List.all_cons, h]
          rw [hws]
          by_cases hm2 : lineWS m = true
          · rw [if_pos hm2, if_pos hm2]
          · rw [if_neg hm2, if_neg hm2]
            show ltrim m :: ms = ltrim (c :: m) :: ms
            rw [ltrim_cons_ws c m h]
    · have hn : ¬(c = '\n') := fun hc => h (by subst hc; decide)
      rw [ltrim_cons_not_ws c cs h]
      cases hm : splitNl cs with
      | nil => exact absurd hm (splitNl_ne_nil cs)
      | cons m ms =>
        have h3 : splitNl (c :: cs) = (c :: m) :: ms := by
          rw [splitNl_cons c cs hn, hm]
        rw [h3, List.dropWhile_cons]
        have hws : lineWS (c :: m) = false := by
          simp [lineWS, List.all_cons, h]
        rw [if_neg (by simp [hws])]
        show (c :: m) :: ms = ltrim (c :: m) :: ms
        rw [ltrim_cons_not_ws c m h]

lemma splitNl_rtrim : ∀ s : Text,
    splitNl (rtrim s)
      = (match rtrimLines (splitNl s) with
         | [] => [[]]
         | x :: xs => x :: xs) := by
  intro s
  induction s with
  | nil => rfl
  | cons c cs ih =>
    by_cases hn : c = '\n'
    · subst hn
      rw [splitNl_cons_nl]
      cases hm : rtrim cs with
      | nil =>
        have hall : cs.all isWS = true := (rtrim_nil_iff cs).1 hm
        have hlines : (splitNl cs).all lineWS = true := (splitNl_all_lineWS_iff cs).2 hall
        have h1 : rtrim ('\n' :: cs) = [] := by
          rw [rtrim_cons_of_nil '\n' cs hm]
          rfl
        rw [h1]
        have h2 : rtrimLines (splitNl cs) = [] := (rtrimLines_nil_iff _).2 hlines
        rw [rtrimLines_cons_of_nil ([] : Text) _ h2]
        rfl
      | cons d ds =>
        have h1 : rtrim ('\n' :: cs) = '\n' :: d :: ds := rtrim_cons_of_cons '\n' cs d ds hm
        rw [h1, splitNl_cons_nl]
        rw [hm] at ih
        rw [ih]
        cases hr : rtrimLines (splitNl cs) with
        | nil =>
          have hall : cs.all isWS = true :=
            (splitNl_all_lineWS_iff cs).1 ((rtrimLines_nil_iff _).1 hr)
          rw [(rtrim_nil_iff cs).2 hall] at hm
          cases hm
        | cons y ys =>
          rw [rtrimLines_cons_of_cons ([] : Text) _ y ys hr]
    · cases hm : splitNl cs with
      | nil => exact absurd hm (splitNl_ne_nil cs)
      | cons m ms =>
        have h3 : splitNl (c :: cs) = (c :: m) :: ms := by
          rw [splitNl_cons c cs hn, hm]
        rw [h3]
        cases hq : rtrim cs with
        | nil =>
          have hall : cs.all isWS = true := (rtrim_nil_iff cs).1 hq
          have hlines : (splitNl cs).all lineWS = true := (splitNl_all_lineWS_iff cs).2 hall
          have hmws : lineWS m = true ∧ ms.all lineWS = true := by
            rw [hm] at hlines
            simpa [List.all_cons, Bool.and_eq_true] using hlines
          have hrl : rtrimLines ms = [] := (rtrimLines_nil_iff _).2 hmws.2
          rw [rtrim_cons_of_nil c cs hq]
          by_cases h : isWS c = true
          · rw [if_pos h]
            have hcm : lineWS (c :: m) = true := by
              have := hmws.1
              simp only [lineWS, List.all_cons] at this ⊢
              simp [h, this]
            rw [rtrimLines_cons_of_nil (c :: m) ms hrl, if_pos hcm]
            rfl
          · rw [if_neg h]
            have hcm : lineWS (c :: m) = false := by
              simp [lineWS, List.all_cons, h]
            rw [rtrimLines_cons_of_nil (c :: m) ms hrl, if_neg (by simp [hcm])]
            have hrm : rtrim m = [] := by
              refine (rtrim_nil_iff m).2 ?_
              simpa [lineWS] using hmws.1
            have h4 : rtrim (c :: m) = [c] := by
              rw [rtrim_cons_of_nil c m hrm, if_neg h]
            rw [h4, splitNl_cons c [] hn]
            rfl
        | cons d ds =>
          have h1 : rtrim (c :: cs) = c :: d :: ds := rtrim_cons_of_cons c cs d ds hq
          rw [h1]
          rw [hq, hm] at ih
          rw [splitNl_cons c (d :: ds) hn, ih]
          cases hr : rtrimLines ms with
          | nil =>
            by_cases hmw : lineWS m = true
            · have hlin : (splitNl cs).all lineWS = true := by
                rw [hm]
                simp [List.all_cons, hmw, (rtrimLines_nil_iff ms).1 hr]
              have hall : cs.all isWS = true := (splitNl_all_lineWS_iff cs).1 hlin
              rw [(rtrim_nil_iff cs).2 hall] at hq
              cases hq
            · have hmwf : lineWS m = false := by
                cases hb : lineWS m
                · rfl
                · exact absurd hb hmw
              rw [rtrimLines_cons_of_nil m ms hr, if_neg (by rw [hmwf]; simp)]
              have hcm : lineWS (c :: m) = false := by
                show ((c :: m).all isWS) = false
                rw [List.all_cons, show m.all isWS = false from hmwf, Bool.and_false]
              rw [rtrimLines_cons_of_nil (c :: m) ms hr, if_neg (by rw [hcm]; simp)]
              cases hrm2 : rtrim m with
              | nil =>
                have hmt : m.all isWS = true := (rtrim_nil_iff m).1 hrm2
                rw [show m.all isWS = false from hmwf] at hmt
                exact absurd hmt (by decide)
              | cons u us =>
                rw [rtrim_cons_of_cons c m u us hrm2]
          | cons y ys =>
            rw [rtrimLines_cons_of_cons m ms y ys hr,
              rtrimLines_cons_of_cons (c :: m) ms y ys hr]

/-!
## Per-line classification folds: fence parity and flush-freedom
-/

/-- Fence parity accumulated over a list of lines. -/
def parityL : List Text → Bool → Bool
  | [], p => p
  | l :: ls, p => parityL ls (if isFenceL l then !p else p)

/-- `okL ls p = true` when, starting from fence state `p`, no line of
`ls` would trigger a section flush (i.e. every delimiter line is seen
inside a fence). -/
def okL : List Text → Bool → Bool
  | [], _ => true
  | l :: ls, p =>
    if isFenceL l then okL ls (!p)
    else if !p && decide (trim l = delimText) then false
    else okL ls p

lemma parityL_cons (l : Text) (ls : List Text) (p : Bool) :
    parityL (l :: ls) p = parityL ls (if isFenceL l then !p else p) := rfl

lemma okL_cons (l : Text) (ls : List Text) (p : Bool) :
    okL (l :: ls) p
      = (if isFenceL l then okL ls (!p)
         else if !p && decide (trim l = delimText) then false
         else okL ls p) := rfl

lemma parityL_append :
    ∀ (xs ys : List Text) (p : Bool), parityL (xs ++ ys) p = parityL ys (parityL xs p) := by
  intro xs
  induction xs with
  | nil => intro ys p; rfl
  | cons l xs ih =>
    intro ys p
    rw [List.cons_append, parityL_cons, parityL_cons, ih]

lemma okL_append :
    ∀ (xs ys : List Text) (p : Bool),
      okL (xs ++ ys) p = (okL xs p && okL ys (parityL xs p)) := by
  intro xs
  induction xs with
  | nil => intro ys p; simp [okL, parityL]
  | cons l xs ih =>
    intro ys p
    rw [List.cons_append, okL_cons, okL_cons, parityL_cons]
    by_cases hf : isFenceL l
    · rw [if_pos hf, if_pos hf, if_pos hf, ih]
    · rw [if_neg hf, if_neg hf, if_neg hf]
      by_cases hd : (!p && decide (trim l = delimText)) = true
      · rw [if_pos hd, if_pos hd]
        rfl
      · rw [if_neg hd, if_neg hd, ih]

/-- Splitting a fence line toggles the flag and keeps the line. -/
lemma splitStep_fence (delim : Text) (st : SplitSt) (l : Text) (h : isFenceL l = true) :
    splitStep delim st l = ⟨st.sections, st.current ++ [l], !st.inCode⟩ := by
  simp [splitStep, h]

/-- Splitting a delimiter line outside a fence flushes the buffer. -/
lemma splitStep_delim (delim : Text) (st : SplitSt) (l : Text)
    (h1 : isFenceL l = false) (h2 : trim l = delim) (h3 : st.inCode = false) :
    splitStep delim st l = ⟨flushSec st.sections st.current, [], st.inCode⟩ := by
  simp [splitStep, h1, h2, h3]

/-- Any other line is buffered. -/
lemma splitStep_other (delim : Text) (st : SplitSt) (l : Text)
    (h1 : isFenceL l = false) (h2 : (!st.inCode && decide (trim l = delim)) = false) :
    splitStep delim st l = ⟨st.sections, st.current ++ [l], st.inCode⟩ := by
  simp only [splitStep, h1, Bool.false_eq_true, if_false, h2]

/-- Folding the segmenter over flush-free lines only extends the
buffer, with the fence flag following the parity of the lines. -/
lemma foldl_no_flush :
    ∀ (ls : List Text) (secs cur : List Text) (b : Bool),
      okL ls b = true →
      ls.foldl (splitStep delimText) ⟨secs, cur, b⟩ = ⟨secs, cur ++ ls, parityL ls b⟩ := by
  intro ls
  induction ls with
  | nil => intro secs cur b _; simp [parityL]
  | cons l ls ih =>
    intro secs cur b hok
    rw [okL_cons] at hok
    rw [List.foldl_cons, parityL_cons]
    by_cases hf : isFenceL l
    · rw [if_pos hf] at hok ⊢
      rw [splitStep_fence delimText _ l hf]
      have := ih secs (cur ++ [l]) (!b) hok
      simp only [this]
      simp
    · rw [if_neg hf] at hok ⊢
      by_cases hd : (!b && decide (trim l = delimText)) = true
      · rw [if_pos hd] at hok
        cases hok
      · rw [if_neg hd] at hok
        have hf' : isFenceL l = false := by
          cases hb : isFenceL l
          · rfl
          · exact absurd hb hf
        have hd' : (!b && decide (trim l = delimText)) = false := by
          cases hb : (!b && decide (trim l = delimText))
          · rfl
          · exact absurd hb hd
        rw [splitStep_other delimText _ l hf' hd']
        have := ih secs (cur ++ [l]) b hok
        simp only [this]
        simp

/-!
## The classification folds are stable under edge trimming
-/

lemma okL_dropWhile_ws :
    ∀ (cur : List Text) (p : Bool), okL (cur.dropWhile lineWS) p = okL cur p := by
  intro cur
  induction cur with
  | nil => intro p; rfl
  | cons l ls ih =>
    intro p
    rw [List.dropWhile_cons]
    by_cases h : lineWS l = true
    · rw [if_pos h, ih, okL_cons]
      have hall : l.all isWS = true := h
      rw [ws_line_not_fence l hall]
      have : decide (trim l = delimText) = false := by
        rw [decide_eq_false (ws_line_not_delim l hall)]
      rw [this]
      simp
    · rw [if_neg h]

lemma parityL_dropWhile_ws :
    ∀ (cur : List Text) (p : Bool), parityL (cur.dropWhile lineWS) p = parityL cur p := by
  intro cur
  induction cur with
  | nil => intro p; rfl
  | cons l ls ih =>
    intro p
    rw [List.dropWhile_cons]
    by_cases h : lineWS l = true
    · rw [if_pos h, ih, parityL_cons, ws_line_not_fence l h]
      simp
    · rw [if_neg h]

lemma okL_cons_congr (l l' : Text) (h : trim l' = trim l) (r : List Text) (p : Bool) :
    okL (l' :: r) p = okL (l :: r) p := by
  rw [okL_cons, okL_cons, isFenceL, isFenceL, h]

lemma parityL_cons_congr (l l' : Text) (h : trim l' = trim l) (r : List Text) (p : Bool) :
    parityL (l' :: r) p = parityL (l :: r) p := by
  rw [parityL_cons, parityL_cons, isFenceL, isFenceL, h]

lemma parityL_ws :
    ∀ (ls : List Text) (p : Bool), ls.all lineWS = true → parityL ls p = p := by
  intro ls
  induction ls with
  | nil => intro p _; rfl
  | cons l ls ih =>
    intro p h
    rw [List.all_cons, Bool.and_eq_true] at h
    rw [parityL_cons, ws_line_not_fence l h.1]
    simp only [Bool.false_eq_true, if_false]
    exact ih p h.2

lemma okL_rtrimLines :
    ∀ (ls : List Text) (p : Bool), okL ls p = true → okL (rtrimLines ls) p = true := by
  intro ls
  induction ls with
  | nil => intro p _; rfl
  | cons l ls ih =>
    intro p hok
    have hsplit : okL [l] p = true ∧ okL ls (parityL [l] p) = true := by
      have h3 := okL_append [l] ls p
      rw [List.singleton_append, hok] at h3
      have h4 := h3.symm
      rw [Bool.and_eq_true] at h4
      exact h4
    cases hm : rtrimLines ls with
    | nil =>
      rw [rtrimLines_cons_of_nil l ls hm]
      by_cases h : lineWS l = true
      · rw [if_pos h]
        rfl
      · rw [if_neg h]
        rw [okL_cons_congr l (rtrim l) (trim_rtrim l) [] p]
        exact hsplit.1
    | cons r rs =>
      rw [rtrimLines_cons_of_cons l ls r rs hm]
      have h2 : okL (r :: rs) (parityL [l] p) = true := by
        rw [← hm]
        exact ih (parityL [l] p) hsplit.2
      have := okL_append [l] (r :: rs) p
      rw [List.singleton_append] at this
      rw [this, hsplit.1, h2]
      rfl

lemma parityL_rtrimLines :
    ∀ (ls : List Text) (p : Bool), parityL (rtrimLines ls) p = parityL ls p := by
  intro ls
  induction ls with
  | nil => intro p; rfl
  | cons l ls ih =>
    intro p
    cases hm : rtrimLines ls with
    | nil =>
      have hall : ls.all lineWS = true := (rtrimLines_nil_iff ls).1 hm
      rw [rtrimLines_cons_of_nil l ls hm]
      by_cases h : lineWS l = true
      · rw [if_pos h, parityL_cons, ws_line_not_fence l h]
        simp only [Bool.false_eq_true, if_false]
        rw [parityL_ws ls p hall]
        rfl
      · rw [if_neg h, parityL_cons_congr l (rtrim l) (trim_rtrim l) [] p,
          parityL_cons, parityL_cons]
        rw [parityL_ws ls _ hall]
        rfl
    | cons r rs =>
      rw [rtrimLines_cons_of_cons l ls r rs hm, parityL_cons, ← hm, ih, ← parityL_cons]

/-- Stripping a joined flush-free buffer yields lines that are again
flush-free, with the same fence parity. -/
lemma trim_join_lines (cur : List Text) (hnl : ∀ l ∈ cur, '\n' ∉ l)
    (hne : ¬(trim (joinNl cur) = [])) :
    (okL cur false = true → okL (splitNl (trim (joinNl cur))) false = true)
    ∧ parityL (splitNl (trim (joinNl cur))) false = parityL cur false := by
  have hcur : cur ≠ [] := by
    intro h
    subst h
    exact hne rfl
  have hsj : splitNl (joinNl cur) = cur := splitNl_joinNl_of cur hcur hnl
  have htrim : trim (joinNl cur) = rtrim (ltrim (joinNl cur)) := rfl
  have hlt := splitNl_ltrim (joinNl cur)
  rw [hsj] at hlt
  cases hdw : cur.dropWhile lineWS with
  | nil =>
    exfalso
    have hall : ∀ l ∈ cur, lineWS l = true := List.dropWhile_eq_nil_iff.1 hdw
    have : (joinNl cur).all isWS = true :=
      all_isWS_joinNl cur (fun l hl => hall l hl)
    exact hne (trim_nil_of_all _ this)
  | cons l r =>
    rw [hdw] at hlt
    have hlt2 : splitNl (ltrim (joinNl cur)) = ltrim l :: r := hlt
    have hrt := splitNl_rtrim (ltrim (joinNl cur))
    rw [hlt2] at hrt
    cases hrl : rtrimLines (ltrim l :: r) with
    | nil =>
      exfalso
      have hall : (ltrim l :: r).all lineWS = true := (rtrimLines_nil_iff _).1 hrl
      have h2 : (ltrim (joinNl cur)).all isWS = true := by
        have := (splitNl_all_lineWS_iff (ltrim (joinNl cur))).1 (by rw [hlt2]; exact hall)
        exact this
      have h3 : rtrim (ltrim (joinNl cur)) = [] := (rtrim_nil_iff _).2 h2
      exact hne (htrim ▸ h3)
    | cons x xs =>
      rw [hrl] at hrt
      have hfinal : splitNl (trim (joinNl cur)) = x :: xs := by
        rw [htrim, hrt]
      rw [hfinal, ← hrl]
      constructor
      · intro hok
        refine okL_rtrimLines (ltrim l :: r) false ?_
        rw [okL_cons_congr l (ltrim l) (trim_ltrim l) r false]
        rw [← hdw, okL_dropWhile_ws]
        exact hok
      · rw [parityL_rtrimLines (ltrim l :: r) false,
          parityL_cons_congr l (ltrim l) (trim_ltrim l) r false,
          ← hdw, parityL_dropWhile_ws]

/-!
## The segmenter invariant and claim C4
-/

/-- The invariant carried by every section the segmenter emits: it is
already stripped, non-empty, and its own lines never trigger a flush
when re-scanned from a closed fence state. -/
def SecGood (s : Text) : Prop :=
  trim s = s ∧ s ≠ [] ∧ okL (splitNl s) false = true

/-- The segmenter-state invariant. -/
def Inv (st : SplitSt) : Prop :=
  (∀ s ∈ st.sections, SecGood s ∧ parityL (splitNl s) false = false)
  ∧ okL st.current false = true
  ∧ parityL st.current false = st.inCode
  ∧ (∀ l ∈ st.current, '\n' ∉ l)

lemma flushSec_cases (secs cur : List Text) (hok : okL cur false = true)
    (hnl : ∀ l ∈ cur, '\n' ∉ l) :
    (trim (joinNl cur) = [] ∧ flushSec secs cur = secs)
    ∨ (¬(trim (joinNl cur) = [])
       ∧ flushSec secs cur = secs ++ [trim (joinNl cur)]
       ∧ SecGood (trim (joinNl cur))
       ∧ parityL (splitNl (trim (joinNl cur))) false = parityL cur false) := by
  by_cases h : trim (joinNl cur) = []
  · exact Or.inl ⟨h, by rw [flushSec, if_pos h]⟩
  · obtain ⟨hokT, hparT⟩ := trim_join_lines cur hnl h
    exact Or.inr ⟨h, by rw [flushSec, if_neg h], ⟨trim_trim _, h, hokT hok⟩, hparT⟩

lemma inv_step (st : SplitSt) (l : Text) (hInv : Inv st) (hnl : '\n' ∉ l) :
    Inv (splitStep delimText st l) := by
  obtain ⟨hsecs, hok, hpar, hcnl⟩ := hInv
  by_cases hf : isFenceL l = true
  · rw [splitStep_fence delimText st l hf]
    refine ⟨hsecs, ?_, ?_, ?_⟩
    · rw [okL_append, hok]
      have h1 : okL [l] (parityL st.current false) = true := by
        rw [okL_cons, if_pos hf]
        rfl
      rw [h1]
      rfl
    · rw [parityL_append, parityL_cons, if_pos hf, hpar]
      rfl
    · intro x hx
      rcases List.mem_append.1 hx with hx | hx
      · exact hcnl x hx
      · rw [List.mem_singleton] at hx
        subst hx
        exact hnl
  · have hf' : isFenceL l = false := by
      cases hb : isFenceL l
      · rfl
      · exact absurd hb hf
    by_cases hd : (!st.inCode && decide (trim l = delimText)) = true
    · rw [Bool.and_eq_true] at hd
      obtain ⟨hdb, hdec⟩ := hd
      have hb : st.inCode = false := by
        cases hbb : st.inCode
        · rfl
        · rw [hbb] at hdb
          cases hdb
      have ht : trim l = delimText := of_decide_eq_true hdec
      rw [splitStep_delim delimText st l hf' ht hb]
      rcases flushSec_cases st.sections st.current hok hcnl with ⟨_, h2⟩ | ⟨_, h2, h3, h4⟩
      · rw [h2]
        refine ⟨hsecs, rfl, ?_, ?_⟩
        · rw [hb]
          rfl
        · intro x hx
          cases hx
      · rw [h2]
        refine ⟨?_, rfl, ?_, ?_⟩
        · intro s hs
          rcases List.mem_append.1 hs with hs | hs
          · exact hsecs s hs
          · rw [List.mem_singleton] at hs
            subst hs
            refine ⟨h3, ?_⟩
            rw [h4, hpar, hb]
        · rw [hb]
          rfl
        · intro x hx
          cases hx
    · have hd' : (!st.inCode && decide (trim l = delimText)) = false := by
        cases hb : (!st.inCode && decide (trim l = delimText))
        · rfl
        · exact absurd hb hd
      rw [splitStep_other delimText st l hf' hd']
      refine ⟨hsecs, ?_, ?_, ?_⟩
      · rw [okL_append, hok]
        have h1 : okL [l] (parityL st.current false) = true := by
          rw [okL_cons, if_neg hf, hpar, hd']
          simp [okL]
        rw [h1]
        rfl
      · rw [parityL_append, parityL_cons, if_neg hf, hpar]
        rfl
      · intro x hx
        rcases List.mem_append.1 hx with hx | hx
        · exact hcnl x hx
        · rw [List.mem_singleton] at hx
          subst hx
          exact hnl

lemma inv_foldl :
    ∀ (lines : List Text) (st : SplitSt), Inv st → (∀ l ∈ lines, '\n' ∉ l) →
      Inv (lines.foldl (splitStep delimText) st) := by
  intro lines
  induction lines with
  | nil => intro st h _; exact h
  | cons l lt ih =>
    intro st h hnl
    rw [List.foldl_cons]
    exact ih (splitStep delimText st l)
      (inv_step st l h (hnl l (List.mem_cons_self _ _)))
      (fun x hx => hnl x (List.mem_cons_of_mem _ hx))

lemma split_output_good (content : Text) :
    (∀ s ∈ split_by_delimiter content delimText, SecGood s)
    ∧ (∀ s ∈ (split_by_delimiter content delimText).dropLast,
        parityL (splitNl s) false = false) := by
  have hInv0 : Inv initSplit :=
    ⟨fun s hs => absurd hs (List.not_mem_nil s), rfl, rfl,
     fun l hl => absurd hl (List.not_mem_nil l)⟩
  obtain ⟨hsecs, hok, hpar, hcnl⟩ :=
    inv_foldl (splitNl content) initSplit hInv0 (no_nl_splitNl content)
  have hsp : split_by_delimiter content delimText
      = flushSec ((splitNl content).foldl (splitStep delimText) initSplit).sections
          ((splitNl content).foldl (splitStep delimText) initSplit).current := rfl
  rcases flushSec_cases ((splitNl content).foldl (splitStep delimText) initSplit).sections
      ((splitNl content).foldl (splitStep delimText) initSplit).current hok hcnl with
    ⟨_, h2⟩ | ⟨_, h2, h3, _⟩
  · rw [hsp, h2]
    exact ⟨fun s hs => (hsecs s hs).1,
      fun s hs => (hsecs s ((List.dropLast_sublist _).subset hs)).2⟩
  · rw [hsp, h2]
    constructor
    · intro s hs
      rcases List.mem_append.1 hs with hs | hs
      · exact (hsecs s hs).1
      · rw [List.mem_singleton] at hs
        subst hs
        exact h3
    · intro s hs
      rw [List.dropLast_concat] at hs
      exact (hsecs s hs).2

/-- Joining a list of sections with delimiter lines, i.e. with the
separator `\n---\n` (the join the spec's idempotence property uses). -/
def joinDelim : List Text → Text
  | [] => []
  | [s] => s
  | s :: s' :: ss => s ++ txt ("\n---\n") ++ joinDelim (s' :: ss)

lemma splitNl_joinDelim_cons (s s' : Text) (ss : List Text) :
    splitNl (joinDelim (s :: s' :: ss))
      = splitNl s ++ [delimText] ++ splitNl (joinDelim (s' :: ss)) := by
  have h1 : joinDelim (s :: s' :: ss)
      = s ++ '\n' :: (txt ("---") ++ '\n' :: joinDelim (s' :: ss)) := by
    show s ++ txt ("\n---\n") ++ joinDelim (s' :: ss) = _
    rw [List.append_assoc]
    congr 1
  rw [h1, splitNl_append_nl, splitNl_append_nl,
    show splitNl (txt ("---")) = [delimText] from by decide]
  simp [List.append_assoc]

lemma recon :
    ∀ (ss : List Text) (secs : List Text),
      (∀ s ∈ ss, SecGood s) →
      (∀ s ∈ ss.dropLast, parityL (splitNl s) false = false) →
      ss ≠ [] →
      flushSec
          ((splitNl (joinDelim ss)).foldl (splitStep delimText) ⟨secs, [], false⟩).sections
          ((splitNl (joinDelim ss)).foldl (splitStep delimText) ⟨secs, [], false⟩).current
        = secs ++ ss := by
  intro ss
  induction ss with
  | nil => intro secs _ _ h; exact absurd rfl h
  | cons s rest ih =>
    intro secs hgood hpar _
    cases rest with
    | nil =>
      have hg := hgood s (List.mem_singleton.2 rfl)
      have hfold := foldl_no_flush (splitNl s) secs [] false hg.2.2
      rw [show joinDelim [s] = s from rfl, hfold]
      show flushSec secs ([] ++ splitNl s) = secs ++ [s]
      rw [List.nil_append, flushSec, joinNl_splitNl, hg.1, if_neg hg.2.1]
    | cons s' rest' =>
      have hg := hgood s (List.mem_cons_self _ _)
      have hp : parityL (splitNl s) false = false := by
        refine hpar s ?_
        rw [List.dropLast_cons₂]
        exact List.mem_cons_self _ _
      rw [splitNl_joinDelim_cons s s' rest', List.foldl_append, List.foldl_append,
        foldl_no_flush (splitNl s) secs [] false hg.2.2,
        List.foldl_cons, List.foldl_nil]
      have hstep := splitStep_delim delimText
        ⟨secs, [] ++ splitNl s, parityL (splitNl s) false⟩ delimText
        (by decide) (by decide) hp
      rw [hstep]
      have hflush : flushSec secs ([] ++ splitNl s) = secs ++ [s] := by
        rw [List.nil_append, flushSec, joinNl_splitNl, hg.1, if_neg hg.2.1]
      show flushSec
          ((splitNl (joinDelim (s' :: rest'))).foldl (splitStep delimText)
            ⟨flushSec secs ([] ++ splitNl s), [], parityL (splitNl s) false⟩).sections
          ((splitNl (joinDelim (s' :: rest'))).foldl (splitStep delimText)
            ⟨flushSec secs ([] ++ splitNl s), [], parityL (splitNl s) false⟩).current
        = secs ++ s :: s' :: rest'
      rw [hflush, hp]
      have hrec := ih (secs ++ [s])
        (fun x hx => hgood x (List.mem_cons_of_mem _ hx))
        (fun x hx => hpar x (by rw [List.dropLast_cons₂]; exact List.mem_cons_of_mem _ hx))
        (by simp)
      rw [hrec]
      simp

/-- C4: running the Fence-Aware Segmenter on the text obtained by
joining its own output sections with delimiter lines (`\n---\n`)
reproduces exactly the same sequence of sections. -/
theorem c4_resplit_idempotent (content : Text) :
    split_by_delimiter (joinDelim (split_by_delimiter content delimText)) delimText
      = split_by_delimiter content delimText := by
  obtain ⟨hgood, hpar⟩ := split_output_good content
  cases hss : split_by_delimiter content delimText with
  | nil => decide
  | cons s0 rest =>
    rw [hss] at hgood hpar
    have h := recon (s0 :: rest) [] hgood hpar (by simp)
    show flushSec
        ((splitNl (joinDelim (s0 :: rest))).foldl (splitStep delimText) ⟨[], [], false⟩).sections
        ((splitNl (joinDelim (s0 :: rest))).foldl (splitStep delimText) ⟨[], [], false⟩).current
      = s0 :: rest
    simpa using h

end Md2Ipynb
